import Mathlib

/-!
Shallow embedding of the streaming chat client of this repository
(`src/frontend/src/components/ChatBox.js` and the second variant in
`src/unnamed/part_005`), together with proofs about the claims on the
frame reassembler, event dispatcher and submission control.

Conventions of the embedding:
* raw bytes are `Nat` values (`0 ≤ b ≤ 255`); a transport chunk is a
  `List Nat`, and a chunked byte stream is a `List (List Nat)`;
* decoded text is carried as `List Char` on the wire side (the frame
  buffer) and as `String` inside messages;
* the host `JSON.parse` is modelled as an arbitrary oracle
  `J : List Char → Option JsonVal` (`none` = the parse threw); a concrete
  executable subset of the oracle, `jsonParseChars`, is provided to
  instantiate counterexamples and witnesses;
* `MsgSt.log` and `MsgSt.endSeen` are ghost observations (the sequence of
  applied deltas and whether the `end` sentinel has been processed); they
  never influence control flow of the embedded code.
-/

/-- A conversation message, `{role, text}` in the source. -/
structure Msg where
  role : String
  text : String
deriving DecidableEq, Repr

/-- Message-level state: the conversation plus ghost observations
(`log` records every applied delta in order, `endSeen` whether an `end`
sentinel frame has been processed). -/
structure MsgSt where
  msgs : List Msg
  log : List String
  endSeen : Bool
deriving DecidableEq, Repr

/-! ## JavaScript value model for `JSON.parse` results -/

/-- Model of the values `JSON.parse` can return. -/
inductive JsonVal where
  | jnull : JsonVal
  | jbool : Bool → JsonVal
  | jnum : Int → JsonVal
  | jstr : String → JsonVal
  | jarr : List JsonVal → JsonVal
  | jobj : List (String × JsonVal) → JsonVal

/-- JS property lookup on a parsed JSON value (`parsed?.field`): `none`
models `undefined` (non-object receiver or absent key); for duplicate keys
`JSON.parse` keeps the last one. -/
def lookupLast (fs : List (String × JsonVal)) (k : String) : Option JsonVal :=
  match fs with
  | [] => none
  | (k', v') :: rest =>
    match lookupLast rest k with
    | some r => some r
    | none => if k' = k then some v' else none

/-- `parsed?.k` in the source. -/
def getField (v : JsonVal) (k : String) : Option JsonVal :=
  match v with
  | .jobj fs => lookupLast fs k
  | _ => none

/-- JS truthiness of a value (`if (parsed?.delta)`): `null`, `false`, `0`
and `""` are falsy; objects and arrays (even empty) are truthy. -/
def truthy (v : JsonVal) : Bool :=
  match v with
  | .jnull => false
  | .jbool b => b
  | .jnum n => n ≠ 0
  | .jstr s => s ≠ ""
  | .jarr _ => true
  | .jobj _ => true

/-- JS truthiness of `parsed?.k` (`undefined` is falsy). -/
def optTruthy (v : Option JsonVal) : Bool :=
  match v with
  | none => false
  | some x => truthy x

mutual

/-- JS string coercion of a value (`"" + v` / template literal); arrays
render as their comma-joined elements, as `Array.prototype.toString`
does. -/
def jsToString : JsonVal → String
  | .jnull => "null"
  | .jbool b => if b then "true" else "false"
  | .jnum n => toString n
  | .jstr s => s
  | .jobj _ => "[object Object]"
  | .jarr xs => String.intercalate "," (jsArrStrings xs)

/-- Element coercions inside an array (`null` renders as ""). -/
def jsArrStrings : List JsonVal → List String
  | [] => []
  | .jnull :: vs => "" :: jsArrStrings vs
  | v :: vs => jsToString v :: jsArrStrings vs

end

/-- JS string coercion of a possibly-undefined property. -/
def optToString (v : Option JsonVal) : String :=
  match v with
  | none => "undefined"
  | some x => jsToString x

/-! ## A concrete executable subset of `JSON.parse`

Used to instantiate the parse oracle on concrete inputs (objects, arrays,
strings with simple escapes, integers and the three keyword literals);
anything outside the subset parses to `none`, i.e. "throws". -/

/-- JSON whitespace. -/
def jsonWs (c : Char) : Bool :=
  c == ' ' || c == '\t' || c == '\n' || c == '\r'

/-- Drop leading JSON whitespace. -/
def skipWs (cs : List Char) : List Char := cs.dropWhile jsonWs

/-- Parse a JSON string body after the opening quote; supports the simple
escape sequences. -/
def parseStrBody (acc : List Char) : List Char → Option (String × List Char)
  | [] => none
  | '"' :: rest => some (String.mk acc.reverse, rest)
  | '\\' :: e :: rest =>
    match e with
    | '"' => parseStrBody ('"' :: acc) rest
    | '\\' => parseStrBody ('\\' :: acc) rest
    | '/' => parseStrBody ('/' :: acc) rest
    | 'n' => parseStrBody ('\n' :: acc) rest
    | 't' => parseStrBody ('\t' :: acc) rest
    | 'r' => parseStrBody ('\r' :: acc) rest
    | 'b' => parseStrBody (Char.ofNat 8 :: acc) rest
    | 'f' => parseStrBody (Char.ofNat 12 :: acc) rest
    | _ => none
  | c :: rest => parseStrBody (c :: acc) rest

/-- Parse a digit run into a `Nat` (accumulator form). -/
def parseDigits (acc : Nat) : List Char → Nat × List Char
  | c :: rest =>
    if c.isDigit then parseDigits (acc * 10 + (c.toNat - 48)) rest
    else (acc, c :: rest)
  | [] => (acc, [])

mutual

/-- Fueled recursive-descent parse of a single JSON value. -/
def parseValF : Nat → List Char → Option (JsonVal × List Char)
  | 0, _ => none
  | fuel + 1, input =>
    match skipWs input with
    | 'n' :: 'u' :: 'l' :: 'l' :: rest => some (.jnull, rest)
    | 't' :: 'r' :: 'u' :: 'e' :: rest => some (.jbool true, rest)
    | 'f' :: 'a' :: 'l' :: 's' :: 'e' :: rest => some (.jbool false, rest)
    | '"' :: rest =>
      match parseStrBody [] rest with
      | some (s, rest') => some (.jstr s, rest')
      | none => none
    | '-' :: c :: rest =>
      if c.isDigit then
        let (n, rest') := parseDigits 0 (c :: rest)
        some (.jnum (-(n : Int)), rest')
      else none
    | '[' :: rest =>
      match skipWs rest with
      | ']' :: rest' => some (.jarr [], rest')
      | _ => parseArrItems fuel rest []
    | '{' :: rest =>
      match skipWs rest with
      | '}' :: rest' => some (.jobj [], rest')
      | _ => parseObjItems fuel rest []
    | c :: rest =>
      if c.isDigit then
        let (n, rest') := parseDigits 0 (c :: rest)
        some (.jnum (n : Int), rest')
      else none
    | [] => none

/-- Fueled parse of the items of a JSON array (after `[`). -/
def parseArrItems : Nat → List Char → List JsonVal → Option (JsonVal × List Char)
  | 0, _, _ => none
  | fuel + 1, input, acc =>
    match parseValF fuel input with
    | some (v, rest) =>
      match skipWs rest with
      | ',' :: rest' => parseArrItems fuel rest' (v :: acc)
      | ']' :: rest' => some (.jarr (v :: acc).reverse, rest')
      | _ => none
    | none => none

/-- Fueled parse of the members of a JSON object (after `{`). -/
def parseObjItems : Nat → List Char → List (String × JsonVal) →
    Option (JsonVal × List Char)
  | 0, _, _ => none
  | fuel + 1, input, acc =>
    match skipWs input with
    | '"' :: rest =>
      match parseStrBody [] rest with
      | some (k, rest') =>
        match skipWs rest' with
        | ':' :: rest2 =>
          match parseValF fuel rest2 with
          | some (v, rest3) =>
            match skipWs rest3 with
            | ',' :: rest4 => parseObjItems fuel rest4 ((k, v) :: acc)
            | '}' :: rest4 => some (.jobj ((k, v) :: acc).reverse, rest4)
            | _ => none
          | none => none
        | _ => none
      | none => none
    | _ => none

end

/-- Concrete subset model of `JSON.parse` over decoded characters: `none`
models a parse exception. -/
def jsonParseChars (cs : List Char) : Option JsonVal :=
  match parseValF (cs.length + 1) cs with
  | some (v, rest) => if skipWs rest = [] then some v else none
  | none => none

/-! ## Streaming UTF-8 decoder (`new TextDecoder()` with `{stream: true}`) -/

/-- State of the incremental UTF-8 decoder: how many continuation bytes
are still needed, the accumulated code point, and the admissible range of
the next continuation byte (WHATWG-style boundaries). -/
structure DecState where
  need : Nat
  acc : Nat
  lo : Nat
  hi : Nat
deriving DecidableEq, Repr

/-- Fresh decoder state. -/
def decInit : DecState := ⟨0, 0, 0x80, 0xBF⟩

/-- Decode a byte arriving with no pending sequence. -/
def decodeStart (b : Nat) : DecState × List Char :=
  if b ≤ 0x7F then (decInit, [Char.ofNat b])
  else if 0xC2 ≤ b ∧ b ≤ 0xDF then (⟨1, b - 0xC0, 0x80, 0xBF⟩, [])
  else if 0xE0 ≤ b ∧ b ≤ 0xEF then
    (⟨2, b - 0xE0, if b = 0xE0 then 0xA0 else 0x80,
      if b = 0xED then 0x9F else 0xBF⟩, [])
  else if 0xF0 ≤ b ∧ b ≤ 0xF4 then
    (⟨3, b - 0xF0, if b = 0xF0 then 0x90 else 0x80,
      if b = 0xF4 then 0x8F else 0xBF⟩, [])
  else (decInit, ['�'])

/-- One step of the streaming UTF-8 decoder: on an invalid continuation
byte it emits a replacement character and reprocesses the byte, as the
WHATWG decoder does. -/
def decodeStep (d : DecState) (b : Nat) : DecState × List Char :=
  if d.need = 0 then decodeStart b
  else if d.lo ≤ b ∧ b ≤ d.hi then
    let acc' := d.acc * 64 + (b - 0x80)
    if d.need = 1 then (decInit, [Char.ofNat acc'])
    else (⟨d.need - 1, acc', 0x80, 0xBF⟩, [])
  else
    let (d', cs) := decodeStart b
    (d', '�' :: cs)

/-- `decoder.decode(value, {stream: true})`: decode a whole chunk, holding
any incomplete trailing sequence in the state. -/
def decodeChunk (d : DecState) : List Nat → DecState × List Char
  | [] => (d, [])
  | b :: bs =>
    let (d1, cs) := decodeStep d b
    let (d2, cs2) := decodeChunk d1 bs
    (d2, cs ++ cs2)

/-- UTF-8 encoding of one character (to build concrete byte streams). -/
def charUtf8 (c : Char) : List Nat :=
  let n := c.toNat
  if n ≤ 0x7F then [n]
  else if n ≤ 0x7FF then [0xC0 + n / 64, 0x80 + n % 64]
  else if n ≤ 0xFFFF then
    [0xE0 + n / 4096, 0x80 + (n / 64) % 64, 0x80 + n % 64]
  else
    [0xF0 + n / 262144, 0x80 + (n / 4096) % 64, 0x80 + (n / 64) % 64,
     0x80 + n % 64]

/-- UTF-8 bytes of a string (to build concrete byte streams). -/
def strBytes (s : String) : List Nat :=
  (s.toList.map charUtf8).flatten

/-! ## Frame reassembly and dispatch -/

/-- JS `String.prototype.trim` whitespace predicate (restricted to the
common whitespace characters). -/
def jsWs (c : Char) : Bool :=
  c == ' ' || c == '\t' || c == '\n' || c == '\r'

/-- `s.trim()` on decoded characters. -/
def jsTrim (cs : List Char) : List Char :=
  ((cs.dropWhile jsWs).reverse.dropWhile jsWs).reverse

/-- The literal `"event:"`. -/
def eventLit : List Char := "event:".toList

/-- The literal `"data:"`. -/
def dataLit : List Char := "data:".toList

/-- The terminal sentinel literal `"end"`. -/
def endLit : List Char := "end".toList

/-- Append text to the conversation's last message
(`out[out.length - 1] = {...last, text: (last.text || "") + s}`);
on an empty list the source would fault, the model returns `[]`. -/
def appendLast : List Msg → String → List Msg
  | [], _ => []
  | [m], s => [⟨m.role, m.text ++ s⟩]
  | m :: m2 :: rest, s => m :: appendLast (m2 :: rest) s

/-- Dispatch one `data:` payload (already prefix-stripped and trimmed):
the sentinel check, then `JSON.parse` via the oracle `J`, then the
`delta` / `error` probes, with the catch-branch appending the raw text as
a delta. Returns the new message state and whether the payload was the
`end` sentinel. -/
def handlePayload (J : List Char → Option JsonVal) (d : List Char)
    (m : MsgSt) : MsgSt × Bool :=
  if d = endLit then ({ m with endSeen := true }, true)
  else
    match J d with
    | some v =>
      if optTruthy (getField v "delta") then
        ({ m with
            msgs := appendLast m.msgs (optToString (getField v "delta")),
            log := m.log ++ [optToString (getField v "delta")] }, false)
      else if optTruthy (getField v "error") then
        ({ m with
            msgs := m.msgs ++
              [⟨"ai", "Error: " ++ optToString (getField v "error")⟩] },
         false)
      else (m, false)
    | none =>
      ({ m with
          msgs := appendLast m.msgs (String.mk d),
          log := m.log ++ [String.mk d] }, false)

/-- Process one raw frame (the text before a blank-line delimiter):
trim it, skip it when empty or when the trimmed text starts with
`event:`, otherwise when it starts with `data:` strip the five-character
tag and dispatch the trimmed payload. -/
def processFrame (J : List Char → Option JsonVal) (f : List Char)
    (m : MsgSt) : MsgSt × Bool :=
  let r := jsTrim f
  if r = [] then (m, false)
  else if eventLit.isPrefixOf r then (m, false)
  else if dataLit.isPrefixOf r then handlePayload J (jsTrim (r.drop 5)) m
  else (m, false)

/-- First occurrence of the frame delimiter `"\n\n"` in the buffer,
returning the text before it and the buffer after it
(`buffer.indexOf("\n\n")` / the two slices in the source). -/
def findDelim : List Char → Option (List Char × List Char)
  | [] => none
  | [_] => none
  | c1 :: c2 :: rest =>
    if c1 = '\n' then
      if c2 = '\n' then some ([], rest)
      else
        match findDelim (c2 :: rest) with
        | some (f, r) => some (c1 :: f, r)
        | none => none
    else
      match findDelim (c2 :: rest) with
      | some (f, r) => some (c1 :: f, r)
      | none => none

/-- Fueled form of the inner `while ((idx = buffer.indexOf("\n\n")) !== -1)`
loop: extract and process complete frames until none is left or the `end`
sentinel is hit (which breaks the loop). Returns the remaining buffer, the
message state, and whether `end` was hit in this pass. -/
def drainF (J : List Char → Option JsonVal) :
    Nat → List Char → MsgSt → List Char × MsgSt × Bool
  | 0, buf, m => (buf, m, false)
  | fuel + 1, buf, m =>
    match findDelim buf with
    | none => (buf, m, false)
    | some (f, rest) =>
      let pm := processFrame J f m
      if pm.2 then (rest, pm.1, true)
      else drainF J fuel rest pm.1

/-- The frame-extraction loop with adequate fuel. -/
def drain (J : List Char → Option JsonVal) (buf : List Char) (m : MsgSt) :
    List Char × MsgSt × Bool :=
  drainF J buf.length buf m

/-! ## The two streaming variants -/

/-- Session state of the plain variant (`ChatBox.js`): decoder state,
frame buffer, message state. The `end` sentinel only breaks the current
drain pass, so no terminal flag is kept across chunks. -/
structure StA where
  dec : DecState
  buf : List Char
  m : MsgSt
deriving DecidableEq, Repr

/-- Session state of the reader-cancelling variant (`part_005`): after the
`end` sentinel the reader is cancelled, so the session carries a terminal
flag and consumes nothing further. -/
structure StB where
  dec : DecState
  buf : List Char
  m : MsgSt
  ended : Bool
deriving DecidableEq, Repr

/-- One read-loop iteration of the plain variant: decode the chunk,
append to the buffer, drain complete frames. -/
def stepA (J : List Char → Option JsonVal) (st : StA) (chunk : List Nat) :
    StA :=
  let dc := decodeChunk st.dec chunk
  let dr := drain J (st.buf ++ dc.2) st.m
  ⟨dc.1, dr.1, dr.2.1⟩

/-- Full read loop of the plain variant over a chunked byte stream. -/
def runA (J : List Char → Option JsonVal) (chunks : List (List Nat))
    (st : StA) : StA :=
  chunks.foldl (stepA J) st

/-- One read-loop iteration of the reader-cancelling variant: once the
session has ended (`reader.cancel()` was awaited) every further read
returns `done` and the chunk is never seen. -/
def stepB (J : List Char → Option JsonVal) (st : StB) (chunk : List Nat) :
    StB :=
  if st.ended then st
  else
    let dc := decodeChunk st.dec chunk
    let dr := drain J (st.buf ++ dc.2) st.m
    ⟨dc.1, dr.1, dr.2.1, dr.2.2⟩

/-- Full read loop of the reader-cancelling variant. -/
def runB (J : List Char → Option JsonVal) (chunks : List (List Nat))
    (st : StB) : StB :=
  chunks.foldl (stepB J) st

/-- Fresh session state of the plain variant over a conversation. -/
def initStA (msgs : List Msg) : StA := ⟨decInit, [], ⟨msgs, [], false⟩⟩

/-- Fresh session state of the reader-cancelling variant. -/
def initStB (msgs : List Msg) : StB := ⟨decInit, [], ⟨msgs, [], false⟩, false⟩

/-! ## Submission control (`sendMessage` / `stopStreaming`) -/

/-- The response handed back by `fetch`: status flag and code, body
presence, and the byte chunks the reader will yield. -/
structure Resp where
  ok : Bool
  status : Nat
  hasBody : Bool
  chunks : List (List Nat)
deriving DecidableEq, Repr

/-- When (if ever) the user's abort (`stopStreaming`) fires during the
session, and the host's message on the resulting `AbortError`. -/
inductive AbortSpec where
  | never : AbortSpec
  | duringFetch : String → AbortSpec
  | duringRead : Nat → String → AbortSpec
deriving DecidableEq, Repr

/-- The initial conversation of `ChatBox` (one greeting message). -/
def initialMessages : List Msg :=
  [⟨"ai", "Hello! Ask me anything about Germany’s Fiscal Code."⟩]

/-- The first `setMessages` of `sendMessage`: append the user question and
the new empty open assistant message. -/
def sendPrelude (input : String) (msgs0 : List Msg) : List Msg :=
  msgs0 ++ [⟨"user", String.mk (jsTrim input.toList)⟩, ⟨"ai", ""⟩]

/-- End-to-end model of `sendMessage` in the plain variant: the guard
(`!input.trim() || loading`), the optimistic append of the user and open
messages, the HTTP status check (`throw new Error(\x60HTTP ...\x60)`), the
read loop, the catch-all that appends `"Error: " + e.message`, and the
`finally` that clears `loading`. `ab` says whether the abort token fires
while awaiting `fetch` or while awaiting the `k`-th chunk read. Returns
the final messages and the final `loading` flag. -/
def sendMessageA (J : List Char → Option JsonVal) (input : String)
    (loading : Bool) (msgs0 : List Msg) (resp : Resp) (ab : AbortSpec) :
    List Msg × Bool :=
  if jsTrim input.toList = [] ∨ loading = true then (msgs0, loading)
  else
    let m1 := sendPrelude input msgs0
    match ab with
    | .duringFetch em => (m1 ++ [⟨"ai", "Error: " ++ em⟩], false)
    | .never =>
      if resp.ok = false ∨ resp.hasBody = false then
        (m1 ++ [⟨"ai", "Error: HTTP " ++ toString resp.status⟩], false)
      else ((runA J resp.chunks (initStA m1)).m.msgs, false)
    | .duringRead k em =>
      if resp.ok = false ∨ resp.hasBody = false then
        (m1 ++ [⟨"ai", "Error: HTTP " ++ toString resp.status⟩], false)
      else if k < resp.chunks.length then
        ((runA J (resp.chunks.take k) (initStA m1)).m.msgs ++
          [⟨"ai", "Error: " ++ em⟩], false)
      else ((runA J resp.chunks (initStA m1)).m.msgs, false)

/-- Observational equivalence of reader-cancelling sessions: equal message
state and terminal flag; the decoder state and buffer only have to agree
while the session is still live (after `reader.cancel()` they are dead
state that no step ever reads). -/
def SimB (s t : StB) : Prop :=
  s.m = t.m ∧ s.ended = t.ended ∧
    (s.ended = false → s.dec = t.dec ∧ s.buf = t.buf)

/-- Invariant of the reader-cancelling session: while live, the frame
buffer holds no complete frame (the drain loop runs to exhaustion). -/
def InvB (st : StB) : Prop :=
  st.ended = true ∨ findDelim st.buf = none

example :
    jsonParseChars "\x7b\"delta\":\"Hello\"\x7d".toList
      = some (.jobj [("delta", .jstr "Hello")]) := rfl

example : jsonParseChars "plain text reply".toList = none := rfl

example : jsonParseChars "end".toList = none := rfl

example :
    (runA jsonParseChars [strBytes "data: \x7b\"delta\":\"Hel",
        strBytes "lo\"\x7d\n\n"]
      (initStA [⟨"ai", ""⟩])).m.msgs = [⟨"ai", "Hello"⟩] := by decide

/-! ## Lemmas about the frame splitter -/

theorem findDelim_some_eq : ∀ b f r, findDelim b = some (f, r) →
    b = f ++ '\n' :: '\n' :: r := by
  intro b
  induction b with
  | nil => intro f r h; simp [findDelim] at h
  | cons c1 tl ih =>
    cases tl with
    | nil => intro f r h; simp [findDelim] at h
    | cons c2 rest =>
      intro f r h
      by_cases h1 : c1 = '\n'
      · by_cases h2 : c2 = '\n'
        · simp only [findDelim, if_pos h1, if_pos h2, Option.some.injEq,
            Prod.mk.injEq] at h
          obtain ⟨rfl, rfl⟩ := h
          simp [h1, h2]
        · cases hm : findDelim (c2 :: rest) with
          | none => simp [findDelim, if_pos h1, if_neg h2, hm] at h
          | some p =>
            obtain ⟨f', r'⟩ := p
            simp only [findDelim, if_pos h1, if_neg h2, hm,
              Option.some.injEq, Prod.mk.injEq] at h
            obtain ⟨rfl, rfl⟩ := h
            have := ih f' r' hm
            simp [this]
      · cases hm : findDelim (c2 :: rest) with
        | none => simp [findDelim, if_neg h1, hm] at h
        | some p =>
          obtain ⟨f', r'⟩ := p
          simp only [findDelim, if_neg h1, hm, Option.some.injEq,
            Prod.mk.injEq] at h
          obtain ⟨rfl, rfl⟩ := h
          have := ih f' r' hm
          simp [this]

theorem findDelim_append : ∀ b f r t, findDelim b = some (f, r) →
    findDelim (b ++ t) = some (f, r ++ t) := by
  intro b
  induction b with
  | nil => intro f r t h; simp [findDelim] at h
  | cons c1 tl ih =>
    cases tl with
    | nil => intro f r t h; simp [findDelim] at h
    | cons c2 rest =>
      intro f r t h
      by_cases h1 : c1 = '\n'
      · by_cases h2 : c2 = '\n'
        · simp only [findDelim, if_pos h1, if_pos h2, Option.some.injEq,
            Prod.mk.injEq] at h
          obtain ⟨rfl, rfl⟩ := h
          simp [findDelim, if_pos h1, if_pos h2]
        · cases hm : findDelim (c2 :: rest) with
          | none => simp [findDelim, if_pos h1, if_neg h2, hm] at h
          | some p =>
            obtain ⟨f', r'⟩ := p
            simp only [findDelim, if_pos h1, if_neg h2, hm,
              Option.some.injEq, Prod.mk.injEq] at h
            obtain ⟨rfl, rfl⟩ := h
            have hx := ih f' r' t hm
            rw [List.cons_append] at hx
            simp only [List.cons_append, findDelim, if_pos h1, if_neg h2,
              List.append_eq]
            rw [hx]
      · cases hm : findDelim (c2 :: rest) with
        | none => simp [findDelim, if_neg h1, hm] at h
        | some p =>
          obtain ⟨f', r'⟩ := p
          simp only [findDelim, if_neg h1, hm, Option.some.injEq,
            Prod.mk.injEq] at h
          obtain ⟨rfl, rfl⟩ := h
          have hx := ih f' r' t hm
          rw [List.cons_append] at hx
          simp only [List.cons_append, findDelim, if_neg h1, List.append_eq]
          rw [hx]

theorem findDelim_rest_lt {b f r : List Char} (h : findDelim b = some (f, r)) :
    r.length < b.length := by
  have he := findDelim_some_eq b f r h
  have := congrArg List.length he
  simp [List.length_append] at this
  omega

/-! ## Lemmas about the drain loop -/

theorem drainF_congr (J : List Char → Option JsonVal) :
    ∀ n1 n2 b m, b.length ≤ n1 → b.length ≤ n2 →
      drainF J n1 b m = drainF J n2 b m := by
  intro n1
  induction n1 with
  | zero =>
    intro n2 b m h1 _
    have hb : b = [] := List.length_eq_zero.mp (Nat.le_zero.mp h1)
    subst hb
    cases n2 <;> simp [drainF, findDelim]
  | succ n ih =>
    intro n2 b m h1 h2
    cases n2 with
    | zero =>
      have hb : b = [] := List.length_eq_zero.mp (Nat.le_zero.mp h2)
      subst hb
      simp [drainF, findDelim]
    | succ n2' =>
      simp only [drainF]
      cases hm : findDelim b with
      | none => rfl
      | some p =>
        obtain ⟨f, rest⟩ := p
        have hlt := findDelim_rest_lt hm
        cases hpm : (processFrame J f m).2 with
        | true => simp [hpm]
        | false =>
          simp only [hpm, Bool.false_eq_true, if_false]
          exact ih n2' rest (processFrame J f m).1 (by omega) (by omega)

theorem drain_none {b : List Char} (J : List Char → Option JsonVal)
    (m : MsgSt) (h : findDelim b = none) : drain J b m = (b, m, false) := by
  cases b with
  | nil => simp [drain, drainF]
  | cons c tl => simp [drain, drainF, h]

theorem drain_some {b f rest : List Char} (J : List Char → Option JsonVal)
    (m : MsgSt) (h : findDelim b = some (f, rest)) :
    drain J b m =
      if (processFrame J f m).2 then (rest, (processFrame J f m).1, true)
      else drain J rest (processFrame J f m).1 := by
  cases b with
  | nil => simp [findDelim] at h
  | cons c tl =>
    show drainF J (c :: tl).length (c :: tl) m = _
    simp only [List.length_cons, drainF, h]
    have hlt := findDelim_rest_lt h
    cases hpm : (processFrame J f m).2 with
    | true => simp [hpm]
    | false =>
      simp only [hpm, Bool.false_eq_true, if_false]
      exact drainF_congr J tl.length rest.length rest _
        (by simp at hlt; omega) (le_refl _)

theorem drain_append (J : List Char → Option JsonVal) :
    ∀ n b, b.length ≤ n → ∀ m t,
      drain J (b ++ t) m =
        if (drain J b m).2.2 then
          ((drain J b m).1 ++ t, (drain J b m).2.1, true)
        else drain J ((drain J b m).1 ++ t) (drain J b m).2.1 := by
  intro n
  induction n with
  | zero =>
    intro b h m t
    have hb : b = [] := List.length_eq_zero.mp (Nat.le_zero.mp h)
    subst hb
    have h0 : drain J ([] : List Char) m = ([], m, false) :=
      drain_none J m (by simp [findDelim])
    rw [h0]
    simp
  | succ n ih =>
    intro b h m t
    cases hm : findDelim b with
    | none =>
      rw [drain_none J m hm]
      simp
    | some p =>
      obtain ⟨f, rest⟩ := p
      have hlt := findDelim_rest_lt hm
      have hmt := findDelim_append b f rest t hm
      rw [drain_some J m hm, drain_some J m hmt]
      cases hpm : (processFrame J f m).2 with
      | true => simp [hpm]
      | false =>
        simp only [hpm, Bool.false_eq_true, if_false]
        exact ih rest (by omega) (processFrame J f m).1 t

theorem drain_not_ended_findDelim (J : List Char → Option JsonVal) :
    ∀ n b, b.length ≤ n → ∀ m, (drain J b m).2.2 = false →
      findDelim (drain J b m).1 = none := by
  intro n
  induction n with
  | zero =>
    intro b h m _
    have hb : b = [] := List.length_eq_zero.mp (Nat.le_zero.mp h)
    subst hb
    rw [drain_none J m (by simp [findDelim])]
    simp [findDelim]
  | succ n ih =>
    intro b h m hend
    cases hm : findDelim b with
    | none =>
      rw [drain_none J m hm]
      exact hm
    | some p =>
      obtain ⟨f, rest⟩ := p
      have hlt := findDelim_rest_lt hm
      rw [drain_some J m hm] at hend ⊢
      cases hpm : (processFrame J f m).2 with
      | true => simp [hpm] at hend
      | false =>
        simp only [hpm, Bool.false_eq_true, if_false] at hend ⊢
        exact ih rest (by omega) (processFrame J f m).1 hend

/-! ## Lemmas about message mutation -/

theorem appendLast_cons (p : Msg) (t : List Msg) (s : String) (h : t ≠ []) :
    appendLast (p :: t) s = p :: appendLast t s := by
  cases t with
  | nil => exact absurd rfl h
  | cons m2 rest => rfl

theorem appendLast_length : ∀ (ms : List Msg) (s : String),
    (appendLast ms s).length = ms.length := by
  intro ms
  induction ms with
  | nil => intro s; rfl
  | cons m tl ih =>
    intro s
    cases tl with
    | nil => rfl
    | cons m2 rest => simp [appendLast, ih]

theorem appendLast_append : ∀ (pre rest : List Msg) (s : String),
    rest ≠ [] → appendLast (pre ++ rest) s = pre ++ appendLast rest s := by
  intro pre
  induction pre with
  | nil => intro rest s _; rfl
  | cons p ps ih =>
    intro rest s h
    rw [List.cons_append, appendLast_cons p (ps ++ rest) s
      (by simp [h]), ih rest s h, List.cons_append]

theorem appendLast_eq : ∀ (ms : List Msg) (s : String) (h : ms ≠ []),
    appendLast ms s =
      ms.dropLast ++ [⟨(ms.getLast h).role, (ms.getLast h).text ++ s⟩] := by
  intro ms
  induction ms with
  | nil => intro s h; exact absurd rfl h
  | cons m tl ih =>
    intro s h
    cases tl with
    | nil => rfl
    | cons m2 rest =>
      have hg : (m :: m2 :: rest).getLast h = (m2 :: rest).getLast (by simp) :=
        List.getLast_cons (by simp)
      rw [appendLast_cons m (m2 :: rest) s (by simp), ih s (by simp), hg]
      rfl

theorem decodeChunk_append (d : DecState) : ∀ (x y : List Nat),
    decodeChunk d (x ++ y) =
      ((decodeChunk (decodeChunk d x).1 y).1,
        (decodeChunk d x).2 ++ (decodeChunk (decodeChunk d x).1 y).2) := by
  intro x
  induction x generalizing d with
  | nil => intro y; simp [decodeChunk]
  | cons b bs ih =>
    intro y
    simp only [List.cons_append, decodeChunk, List.append_eq]
    rw [ih (decodeStep d b).1 y]
    simp [List.append_assoc]

/-- Message-extension preservation through the payload dispatcher: any
nonempty suffix past a fixed prefix stays a nonempty suffix (the dispatcher
only mutates the last message or appends). -/
theorem handlePayload_ext (J : List Char → Option JsonVal) (d : List Char)
    (m : MsgSt) (pre rest : List Msg) (hr : rest ≠ [])
    (hm : m.msgs = pre ++ rest) :
    ∃ rest2, rest2 ≠ [] ∧ (handlePayload J d m).1.msgs = pre ++ rest2 := by
  unfold handlePayload
  by_cases he : d = endLit
  · exact ⟨rest, hr, by simp [he, hm]⟩
  · cases hj : J d with
    | none =>
      refine ⟨appendLast rest (String.mk d), ?_, ?_⟩
      · cases rest with
        | nil => exact absurd rfl hr
        | cons r rs => cases rs <;> simp [appendLast]
      · simp [he, hj, hm, appendLast_append pre rest _ hr]
    | some v =>
      by_cases hd : optTruthy (getField v "delta") = true
      · refine ⟨appendLast rest (optToString (getField v "delta")), ?_, ?_⟩
        · cases rest with
          | nil => exact absurd rfl hr
          | cons r rs => cases rs <;> simp [appendLast]
        · simp [he, hj, hd, hm, appendLast_append pre rest _ hr]
      · by_cases herr : optTruthy (getField v "error") = true
        · refine ⟨rest ++ [⟨"ai", "Error: " ++ optToString (getField v "error")⟩],
            by simp, ?_⟩
          simp [he, hj, hd, herr, hm]
        · exact ⟨rest, hr, by simp [he, hj, hd, herr, hm]⟩

/-- Message-extension preservation through one frame. -/
theorem processFrame_ext (J : List Char → Option JsonVal) (f : List Char)
    (m : MsgSt) (pre rest : List Msg) (hr : rest ≠ [])
    (hm : m.msgs = pre ++ rest) :
    ∃ rest2, rest2 ≠ [] ∧ (processFrame J f m).1.msgs = pre ++ rest2 := by
  unfold processFrame
  by_cases h0 : jsTrim f = []
  · exact ⟨rest, hr, by simp [h0, hm]⟩
  · by_cases h1 : eventLit.isPrefixOf (jsTrim f)
    · exact ⟨rest, hr, by simp [h0, h1, hm]⟩
    · by_cases h2 : dataLit.isPrefixOf (jsTrim f)
      · simpa [h0, h1, h2] using
          handlePayload_ext J (jsTrim ((jsTrim f).drop 5)) m pre rest hr hm
      · exact ⟨rest, hr, by simp [h0, h1, h2, hm]⟩

/-- Message-extension preservation through the drain loop. -/
theorem drain_ext (J : List Char → Option JsonVal) :
    ∀ n b, b.length ≤ n → ∀ m pre rest, rest ≠ [] → m.msgs = pre ++ rest →
      ∃ rest2, rest2 ≠ [] ∧ (drain J b m).2.1.msgs = pre ++ rest2 := by
  intro n
  induction n with
  | zero =>
    intro b h m pre rest hr hm
    have hb : b = [] := List.length_eq_zero.mp (Nat.le_zero.mp h)
    subst hb
    rw [drain_none J m (by simp [findDelim])]
    exact ⟨rest, hr, hm⟩
  | succ n ih =>
    intro b h m pre rest hr hm
    cases hfd : findDelim b with
    | none =>
      rw [drain_none J m hfd]
      exact ⟨rest, hr, hm⟩
    | some p =>
      obtain ⟨f, rst⟩ := p
      have hlt := findDelim_rest_lt hfd
      rw [drain_some J m hfd]
      obtain ⟨rest2, hr2, hm2⟩ := processFrame_ext J f m pre rest hr hm
      cases hpm : (processFrame J f m).2 with
      | true => exact ⟨rest2, hr2, by simp [hpm, hm2]⟩
      | false =>
        simp only [hpm, Bool.false_eq_true, if_false]
        exact ih rst (by omega) (processFrame J f m).1 pre rest2 hr2 hm2

/-- Message-extension preservation through one read-loop step of the plain
variant. -/
theorem stepA_ext (J : List Char → Option JsonVal) (st : StA)
    (c : List Nat) (pre rest : List Msg) (hr : rest ≠ [])
    (hm : st.m.msgs = pre ++ rest) :
    ∃ rest2, rest2 ≠ [] ∧ (stepA J st c).m.msgs = pre ++ rest2 := by
  unfold stepA
  exact drain_ext J (st.buf ++ (decodeChunk st.dec c).2).length _ (le_refl _)
    st.m pre rest hr hm

/-- Message-extension preservation through the plain variant's read loop. -/
theorem runA_ext (J : List Char → Option JsonVal) :
    ∀ (chunks : List (List Nat)) (st : StA) (pre rest : List Msg),
      rest ≠ [] → st.m.msgs = pre ++ rest →
      ∃ rest2, rest2 ≠ [] ∧ (runA J chunks st).m.msgs = pre ++ rest2 := by
  intro chunks
  induction chunks with
  | nil => intro st pre rest hr hm; exact ⟨rest, hr, hm⟩
  | cons c cs ih =>
    intro st pre rest hr hm
    obtain ⟨rest2, hr2, hm2⟩ := stepA_ext J st c pre rest hr hm
    exact ih (stepA J st c) pre rest2 hr2 hm2

/-! ## Simulation lemmas for the reader-cancelling variant -/

theorem simB_refl (s : StB) : SimB s s := ⟨rfl, rfl, fun _ => ⟨rfl, rfl⟩⟩

theorem simB_symm {s t : StB} (h : SimB s t) : SimB t s := by
  obtain ⟨h1, h2, h3⟩ := h
  exact ⟨h1.symm, h2.symm, fun hl =>
    ⟨(h3 (h2 ▸ hl)).1.symm, (h3 (h2 ▸ hl)).2.symm⟩⟩

theorem simB_trans {s t u : StB} (h1 : SimB s t) (h2 : SimB t u) :
    SimB s u := by
  obtain ⟨a1, a2, a3⟩ := h1
  obtain ⟨b1, b2, b3⟩ := h2
  refine ⟨a1.trans b1, a2.trans b2, fun hl => ?_⟩
  obtain ⟨c1, c2⟩ := a3 hl
  obtain ⟨d1, d2⟩ := b3 (a2 ▸ hl)
  exact ⟨c1.trans d1, c2.trans d2⟩

theorem simB_eq_of_live {s t : StB} (h : SimB s t) (hl : s.ended = false) :
    s = t := by
  obtain ⟨h1, h2, h3⟩ := h
  obtain ⟨h4, h5⟩ := h3 hl
  cases s
  cases t
  simp_all

theorem stepB_ended (J : List Char → Option JsonVal) (st : StB)
    (c : List Nat) (h : st.ended = true) : stepB J st c = st := by
  simp [stepB, h]

theorem stepB_live (J : List Char → Option JsonVal) (st : StB)
    (c : List Nat) (h : st.ended = false) :
    stepB J st c =
      ⟨(decodeChunk st.dec c).1,
        (drain J (st.buf ++ (decodeChunk st.dec c).2) st.m).1,
        (drain J (st.buf ++ (decodeChunk st.dec c).2) st.m).2.1,
        (drain J (st.buf ++ (decodeChunk st.dec c).2) st.m).2.2⟩ := by
  simp [stepB, h]

theorem stepB_sim (J : List Char → Option JsonVal) {s t : StB}
    (c : List Nat) (h : SimB s t) : SimB (stepB J s c) (stepB J t c) := by
  cases hE : s.ended with
  | false => rw [simB_eq_of_live h hE]; exact simB_refl _
  | true =>
    have hT : t.ended = true := h.2.1 ▸ hE
    rw [stepB_ended J s c hE, stepB_ended J t c hT]
    exact h

theorem runB_cons (J : List Char → Option JsonVal) (c : List Nat)
    (cs : List (List Nat)) (st : StB) :
    runB J (c :: cs) st = runB J cs (stepB J st c) := rfl

theorem runB_append (J : List Char → Option JsonVal)
    (xs ys : List (List Nat)) (st : StB) :
    runB J (xs ++ ys) st = runB J ys (runB J xs st) := by
  simp [runB, List.foldl_append]

theorem runB_ended_fix (J : List Char → Option JsonVal) :
    ∀ (cs : List (List Nat)) (st : StB), st.ended = true →
      runB J cs st = st := by
  intro cs
  induction cs with
  | nil => intro st _; rfl
  | cons c cs ih =>
    intro st h
    rw [runB_cons, stepB_ended J st c h, ih st h]

theorem runB_sim (J : List Char → Option JsonVal) :
    ∀ (cs : List (List Nat)) {s t : StB}, SimB s t →
      SimB (runB J cs s) (runB J cs t) := by
  intro cs
  induction cs with
  | nil => intro s t h; exact h
  | cons c cs ih =>
    intro s t h
    rw [runB_cons, runB_cons]
    exact ih (stepB_sim J c h)

theorem invB_step (J : List Char → Option JsonVal) (st : StB)
    (c : List Nat) (h : InvB st) : InvB (stepB J st c) := by
  cases hE : st.ended with
  | true => rw [stepB_ended J st c hE]; exact h
  | false =>
    rw [stepB_live J st c hE]
    cases hD : (drain J (st.buf ++ (decodeChunk st.dec c).2) st.m).2.2 with
    | true => left; simp [hD]
    | false =>
      right
      show findDelim (drain J (st.buf ++ (decodeChunk st.dec c).2) st.m).1
        = none
      exact drain_not_ended_findDelim J
        (st.buf ++ (decodeChunk st.dec c).2).length _ (le_refl _) st.m hD

theorem invB_run (J : List Char → Option JsonVal) :
    ∀ (cs : List (List Nat)) (st : StB), InvB st → InvB (runB J cs st) := by
  intro cs
  induction cs with
  | nil => intro st h; exact h
  | cons c cs ih =>
    intro st h
    rw [runB_cons]
    exact ih (stepB J st c) (invB_step J st c h)

theorem stepB_nil (J : List Char → Option JsonVal) (st : StB)
    (h : InvB st) : stepB J st [] = st := by
  cases hE : st.ended with
  | true => exact stepB_ended J st [] hE
  | false =>
    have hfd : findDelim st.buf = none := by
      cases h with
      | inl h' => rw [hE] at h'; exact absurd h' (by simp)
      | inr h' => exact h'
    rw [stepB_live J st [] hE]
    show (⟨st.dec, (drain J (st.buf ++ []) st.m).1,
      (drain J (st.buf ++ []) st.m).2.1,
      (drain J (st.buf ++ []) st.m).2.2⟩ : StB) = st
    rw [List.append_nil, drain_none J st.m hfd]
    cases st
    simp_all

theorem stepB_split (J : List Char → Option JsonVal) (s : StB)
    (x y : List Nat) :
    SimB (stepB J s (x ++ y)) (stepB J (stepB J s x) y) := by
  cases hE : s.ended with
  | true =>
    rw [stepB_ended J s (x ++ y) hE, stepB_ended J s x hE,
      stepB_ended J s y hE]
    exact simB_refl s
  | false =>
    rw [stepB_live J s (x ++ y) hE, stepB_live J s x hE,
      decodeChunk_append s.dec x y]
    dsimp only
    rw [← List.append_assoc]
    rw [drain_append J (s.buf ++ (decodeChunk s.dec x).2).length
      (s.buf ++ (decodeChunk s.dec x).2) (le_refl _) s.m
      (decodeChunk (decodeChunk s.dec x).1 y).2]
    generalize drain J (s.buf ++ (decodeChunk s.dec x).2) s.m = D
    obtain ⟨Db, Dm, De⟩ := D
    cases De with
    | true =>
      dsimp only
      rw [if_pos rfl, stepB_ended J _ y rfl]
      exact ⟨rfl, rfl, fun hc => by simp at hc⟩
    | false =>
      dsimp only
      rw [if_neg (by simp), stepB_live J _ y rfl]
      exact simB_refl _

theorem chunk_to_bytes (J : List Char → Option JsonVal) :
    ∀ (c : List Nat) (s : StB), InvB s →
      SimB (stepB J s c) (runB J (c.map fun b => [b]) s) := by
  intro c
  induction c with
  | nil =>
    intro s h
    rw [show runB J ([].map fun b => [b]) s = s from rfl, stepB_nil J s h]
    exact simB_refl s
  | cons b bs ih =>
    intro s h
    have h1 := stepB_split J s [b] bs
    rw [List.singleton_append] at h1
    have h2 := ih (stepB J s [b]) (invB_step J s [b] h)
    rw [show (b :: bs).map (fun b => [b]) = [b] :: bs.map (fun b => [b])
      from rfl, runB_cons]
    exact simB_trans h1 h2

theorem run_to_bytes (J : List Char → Option JsonVal) :
    ∀ (cs : List (List Nat)) (s : StB), InvB s →
      SimB (runB J cs s) (runB J (cs.flatten.map fun b => [b]) s) := by
  intro cs
  induction cs with
  | nil => intro s _; exact simB_refl s
  | cons c cs ih =>
    intro s h
    rw [runB_cons, List.flatten_cons, List.map_append, runB_append]
    have h1 := ih (stepB J s c) (invB_step J s c h)
    have h2 := runB_sim J (cs.flatten.map fun b => [b])
      (chunk_to_bytes J c s h)
    exact simB_trans h1 h2

/-- Chunking invariance of the reader-cancelling variant: two chunked
streams carrying the same bytes produce the same message state. -/
theorem runB_obs_of_flatten_eq (J : List Char → Option JsonVal)
    (c1 c2 : List (List Nat)) (msgs0 : List Msg)
    (h : c1.flatten = c2.flatten) :
    (runB J c1 (initStB msgs0)).m = (runB J c2 (initStB msgs0)).m := by
  have hInv : InvB (initStB msgs0) := Or.inr (by simp [initStB, findDelim])
  have h1 := run_to_bytes J c1 (initStB msgs0) hInv
  have h2 := run_to_bytes J c2 (initStB msgs0) hInv
  rw [h] at h1
  exact (simB_trans h1 (simB_symm h2)).1

/-- Unfolding of a plain-variant read-loop step. -/
theorem stepA_def (J : List Char → Option JsonVal) (st : StA)
    (c : List Nat) :
    stepA J st c =
      ⟨(decodeChunk st.dec c).1,
        (drain J (st.buf ++ (decodeChunk st.dec c).2) st.m).1,
        (drain J (st.buf ++ (decodeChunk st.dec c).2) st.m).2.1⟩ := rfl

/-- Lockstep agreement of the two variants while the reader-cancelling
variant has not terminated before the final chunk. -/
theorem variantsAgreeAux (J : List Char → Option JsonVal) :
    ∀ (cs : List (List Nat)) (a : StA) (b : StB),
      a.dec = b.dec → a.buf = b.buf → a.m = b.m → b.ended = false →
      (runB J cs.dropLast b).ended = false →
      (runA J cs a).m = (runB J cs b).m := by
  intro cs
  induction cs with
  | nil => intro a b _ _ h3 _ _; exact h3
  | cons c cs' ih =>
    intro a b h1 h2 h3 h4 h5
    cases cs' with
    | nil =>
      show (stepA J a c).m = (stepB J b c).m
      rw [stepA_def, stepB_live J b c h4, h1, h2, h3]
    | cons c2 rest =>
      have h5' : (runB J ((c2 :: rest).dropLast) (stepB J b c)).ended
          = false := by
        have : (c :: c2 :: rest).dropLast = c :: (c2 :: rest).dropLast := by
          simp
        rw [this, runB_cons] at h5
        exact h5
      have hb1 : (stepB J b c).ended = false := by
        cases hx : (stepB J b c).ended with
        | false => rfl
        | true =>
          rw [runB_ended_fix J _ _ hx] at h5'
          rw [hx] at h5'
          exact h5'
      show (runA J (c2 :: rest) (stepA J a c)).m
        = (runB J (c2 :: rest) (stepB J b c)).m
      refine ih (stepA J a c) (stepB J b c) ?_ ?_ ?_ hb1 h5'
      · rw [stepA_def, stepB_live J b c h4, h1]
      · rw [stepA_def, stepB_live J b c h4, h1, h2, h3]
      · rw [stepA_def, stepB_live J b c h4, h1, h2, h3]

/-- Claim C1 (counterexample): in the plain `ChatBox.js` variant, the same
byte stream chunked two ways gives different final conversations — the
frame after the `end` sentinel is applied only when it arrives in a later
chunk, because `break` only leaves the inner frame loop. -/
theorem chunking_dependence_counterexample :
    [strBytes "data: end\n\ndata: \x7b\"delta\":\"x\"\x7d\n\n"].flatten
      = [strBytes "data: end\n\n",
          strBytes "data: \x7b\"delta\":\"x\"\x7d\n\n"].flatten
    ∧ (runA jsonParseChars
        [strBytes "data: end\n\ndata: \x7b\"delta\":\"x\"\x7d\n\n"]
        (initStA (sendPrelude "q" initialMessages))).m.msgs
      ≠ (runA jsonParseChars
          [strBytes "data: end\n\n",
            strBytes "data: \x7b\"delta\":\"x\"\x7d\n\n"]
          (initStA (sendPrelude "q" initialMessages))).m.msgs := by decide

/-- Claim C1 (amended): for the reader-cancelling variant (`part_005`),
any two chunkings of the same complete byte stream — including splits
mid-multibyte-character and mid-delimiter — yield the same sequence of
applied deltas and the same final conversation. -/
theorem runB_chunking_invariant (J : List Char → Option JsonVal)
    (c1 c2 : List (List Nat)) (msgs0 : List Msg)
    (h : c1.flatten = c2.flatten) :
    (runB J c1 (initStB msgs0)).m.log = (runB J c2 (initStB msgs0)).m.log
    ∧ (runB J c1 (initStB msgs0)).m.msgs
      = (runB J c2 (initStB msgs0)).m.msgs := by
  have hobs := runB_obs_of_flatten_eq J c1 c2 msgs0 h
  exact ⟨congrArg MsgSt.log hobs, congrArg MsgSt.msgs hobs⟩

/-- Claim C1 (witness): a concrete stream split mid-multibyte-character
(the two bytes of `é`) versus delivered whole. -/
theorem runB_chunking_invariant_witness :
    (((strBytes "data: \x7b\"delta\":\"héllo\"\x7d\n\ndata: end\n\n").take
        12 :: [(strBytes "data: \x7b\"delta\":\"héllo\"\x7d\n\ndata: end\n\n").drop
        12]).flatten
      = [strBytes "data: \x7b\"delta\":\"héllo\"\x7d\n\ndata: end\n\n"].flatten)
    ∧ ((runB jsonParseChars
        ((strBytes "data: \x7b\"delta\":\"héllo\"\x7d\n\ndata: end\n\n").take
          12 :: [(strBytes "data: \x7b\"delta\":\"héllo\"\x7d\n\ndata: end\n\n").drop
          12]) (initStB initialMessages)).m.log
      = (runB jsonParseChars
          [strBytes "data: \x7b\"delta\":\"héllo\"\x7d\n\ndata: end\n\n"]
          (initStB initialMessages)).m.log
    ∧ (runB jsonParseChars
        ((strBytes "data: \x7b\"delta\":\"héllo\"\x7d\n\ndata: end\n\n").take
          12 :: [(strBytes "data: \x7b\"delta\":\"héllo\"\x7d\n\ndata: end\n\n").drop
          12]) (initStB initialMessages)).m.msgs
      = (runB jsonParseChars
          [strBytes "data: \x7b\"delta\":\"héllo\"\x7d\n\ndata: end\n\n"]
          (initStB initialMessages)).m.msgs) :=
  ⟨by decide, runB_chunking_invariant jsonParseChars _ _ initialMessages
    (by decide)⟩

/-- Claim C2 (counterexample): in the plain `ChatBox.js` variant, after
the `end` sentinel has been processed (endSeen), a delta arriving in a
later chunk is still applied — the read loop keeps consuming chunks. -/
theorem end_not_terminal_counterexample :
    (runA jsonParseChars [strBytes "data: end\n\n"]
      (initStA (sendPrelude "q" initialMessages))).m.endSeen = true
    ∧ (runA jsonParseChars [strBytes "data: end\n\n"]
        (initStA (sendPrelude "q" initialMessages))).m.log = []
    ∧ (runA jsonParseChars
        [strBytes "data: end\n\n", strBytes "data: \x7b\"delta\":\"x\"\x7d\n\n"]
        (initStA (sendPrelude "q" initialMessages))).m.log = ["x"] := by
  decide

/-- Claim C2 (amended): in the reader-cancelling variant (`part_005`),
once the `end` sentinel has been processed the session state is final —
any further chunks are never consumed and no further delta is applied. -/
theorem runB_end_terminal (J : List Char → Option JsonVal)
    (cs more : List (List Nat)) (st : StB)
    (h : (runB J cs st).ended = true) :
    runB J (cs ++ more) st = runB J cs st := by
  rw [runB_append]
  exact runB_ended_fix J more _ h

/-- Claim C2 (witness): a concrete terminated stream followed by an extra
delta chunk that is never applied. -/
theorem runB_end_terminal_witness :
    (runB jsonParseChars [strBytes "data: end\n\n"]
      (initStB (sendPrelude "q" initialMessages))).ended = true
    ∧ runB jsonParseChars
        ([strBytes "data: end\n\n"] ++
          [strBytes "data: \x7b\"delta\":\"x\"\x7d\n\n"])
        (initStB (sendPrelude "q" initialMessages))
      = runB jsonParseChars [strBytes "data: end\n\n"]
          (initStB (sendPrelude "q" initialMessages)) :=
  ⟨by decide, runB_end_terminal jsonParseChars _ _ _ (by decide)⟩

/-- Claim C9 (counterexample): the two variants disagree when bytes follow
the `end` sentinel in a later chunk — the plain variant applies the late
delta, the reader-cancelling variant does not. -/
theorem variants_differ_counterexample :
    (runA jsonParseChars
      [strBytes "data: end\n\n", strBytes "data: \x7b\"delta\":\"x\"\x7d\n\n"]
      (initStA (sendPrelude "q" initialMessages))).m.msgs
    ≠ (runB jsonParseChars
        [strBytes "data: end\n\n", strBytes "data: \x7b\"delta\":\"x\"\x7d\n\n"]
        (initStB (sendPrelude "q" initialMessages))).m.msgs := by decide

/-- Claim C9 (amended): the two variants produce identical final message
states whenever the reader-cancelling variant has not terminated strictly
before the final chunk — in particular on every stream with no `end`
sentinel, and on every stream whose `end` sentinel arrives in the last
chunk. -/
theorem variants_agree_amended (J : List Char → Option JsonVal)
    (cs : List (List Nat)) (msgs0 : List Msg)
    (h : (runB J cs.dropLast (initStB msgs0)).ended = false) :
    (runA J cs (initStA msgs0)).m = (runB J cs (initStB msgs0)).m :=
  variantsAgreeAux J cs (initStA msgs0) (initStB msgs0) rfl rfl rfl rfl h

/-- Claim C9 (witness): a concrete delta-then-end stream on which the two
variants agree. -/
theorem variants_agree_amended_witness :
    (runB jsonParseChars
      ([strBytes "data: \x7b\"delta\":\"Hi\"\x7d\n\n",
        strBytes "data: end\n\n"].dropLast)
      (initStB (sendPrelude "q" initialMessages))).ended = false
    ∧ (runA jsonParseChars
        [strBytes "data: \x7b\"delta\":\"Hi\"\x7d\n\n",
          strBytes "data: end\n\n"]
        (initStA (sendPrelude "q" initialMessages))).m
      = (runB jsonParseChars
          [strBytes "data: \x7b\"delta\":\"Hi\"\x7d\n\n",
            strBytes "data: end\n\n"]
          (initStB (sendPrelude "q" initialMessages))).m :=
  ⟨by decide, variants_agree_amended jsonParseChars _
    (sendPrelude "q" initialMessages) (by decide)⟩

/-- Claim C4 (counterexample): a frame holding an `event:` line followed
by a meaningful `data:` line is skipped in its entirety — the `data:`
payload is never dispatched, because the source tests `startsWith` on the
whole trimmed frame, not per line. -/
theorem event_data_frame_skipped_counterexample :
    processFrame jsonParseChars
      ("event: message\ndata: \x7b\"delta\":\"hi\"\x7d").toList
      ⟨[⟨"ai", ""⟩], [], false⟩
      = (⟨[⟨"ai", ""⟩], [], false⟩, false)
    ∧ handlePayload jsonParseChars
        (jsTrim ((jsTrim ("data: \x7b\"delta\":\"hi\"\x7d").toList).drop 5))
        ⟨[⟨"ai", ""⟩], [], false⟩
      ≠ (⟨[⟨"ai", ""⟩], [], false⟩, false) := by decide

/-- Claim C4 (amended): a frame whose trimmed text begins with `event:`
is skipped whole (even when a `data:` line follows inside it); only a
frame whose trimmed text begins with `data:` has its payload — everything
after the five-character tag, trimmed — dispatched. -/
theorem frame_dispatch_amended (J : List Char → Option JsonVal)
    (f : List Char) (m : MsgSt) :
    (eventLit.isPrefixOf (jsTrim f) = true → processFrame J f m = (m, false))
    ∧ (dataLit.isPrefixOf (jsTrim f) = true →
        processFrame J f m = handlePayload J (jsTrim ((jsTrim f).drop 5)) m)
    := by
  constructor
  · intro h
    have hne : jsTrim f ≠ [] := by
      intro h0
      rw [h0] at h
      simp [eventLit, List.isPrefixOf] at h
    unfold processFrame
    rw [if_neg hne, if_pos h]
  · intro h
    have hne : jsTrim f ≠ [] := by
      intro h0
      rw [h0] at h
      simp [dataLit, List.isPrefixOf] at h
    have hev : eventLit.isPrefixOf (jsTrim f) = false := by
      cases hjt : jsTrim f with
      | nil => exact absurd hjt hne
      | cons c rest =>
        rw [hjt] at h
        have hc : c = 'd' := by
          have hdl : dataLit = ['d', 'a', 't', 'a', ':'] := rfl
          rw [hdl] at h
          simp [List.isPrefixOf] at h
          exact h.1.symm
        subst hc
        have hel : eventLit = ['e', 'v', 'e', 'n', 't', ':'] := rfl
        rw [hel]
        simp [List.isPrefixOf]
    unfold processFrame
    rw [if_neg hne, hev]
    simp [h]

/-- Claim C4 (witness): one pure `event:` frame skipped, one `data: end`
frame dispatched. -/
theorem frame_dispatch_amended_witness :
    processFrame jsonParseChars "event: ping".toList ⟨[⟨"ai", ""⟩], [], false⟩
      = (⟨[⟨"ai", ""⟩], [], false⟩, false)
    ∧ processFrame jsonParseChars "data: end".toList ⟨[⟨"ai", ""⟩], [], false⟩
      = handlePayload jsonParseChars
          (jsTrim ((jsTrim "data: end".toList).drop 5))
          ⟨[⟨"ai", ""⟩], [], false⟩ :=
  ⟨(frame_dispatch_amended jsonParseChars "event: ping".toList
      ⟨[⟨"ai", ""⟩], [], false⟩).1 (by decide),
   (frame_dispatch_amended jsonParseChars "data: end".toList
      ⟨[⟨"ai", ""⟩], [], false⟩).2 (by decide)⟩

/-- Claim C5 (counterexample): an `error` payload followed by a `delta`
payload — the delta is applied to the error message (the new last
element), while the session's originally-open message (the head, still
`""`) never receives it; so the open message does not stay the target of
every delta for the whole session. -/
theorem delta_target_shift_counterexample :
    ((handlePayload jsonParseChars ("\x7b\"delta\":\"x\"\x7d").toList
        (handlePayload jsonParseChars ("\x7b\"error\":\"boom\"\x7d").toList
          ⟨[⟨"ai", ""⟩], [], false⟩).1).1).msgs
      = [⟨"ai", ""⟩, ⟨"ai", "Error: boomx"⟩]
    ∧ ((handlePayload jsonParseChars ("\x7b\"delta\":\"x\"\x7d").toList
        (handlePayload jsonParseChars ("\x7b\"error\":\"boom\"\x7d").toList
          ⟨[⟨"ai", ""⟩], [], false⟩).1).1).log = ["x"] := by decide

/-- Claim C5 (amended): a truthy `delta` payload appends the delta's
string form to the conversation's last message at processing time,
leaving all earlier messages untouched; a truthy `error` payload appends
a brand-new assistant message `"Error: " + error`, mutating nothing that
already exists — after which the error message, now last, is the target
of subsequent deltas. -/
theorem delta_error_handling_amended (J : List Char → Option JsonVal)
    (d : List Char) (m : MsgSt) (v : JsonVal)
    (hj : J d = some v) (hne : d ≠ endLit) (hm : m.msgs ≠ []) :
    (optTruthy (getField v "delta") = true →
      (handlePayload J d m).1.msgs
        = m.msgs.dropLast ++
            [⟨(m.msgs.getLast hm).role,
              (m.msgs.getLast hm).text ++ optToString (getField v "delta")⟩])
    ∧ (optTruthy (getField v "delta") = false →
        optTruthy (getField v "error") = true →
        (handlePayload J d m).1.msgs
          = m.msgs ++ [⟨"ai", "Error: " ++ optToString (getField v "error")⟩])
    := by
  constructor
  · intro hd
    unfold handlePayload
    rw [if_neg hne, hj]
    simp only [hd, if_true]
    exact appendLast_eq m.msgs _ hm
  · intro hd herr
    unfold handlePayload
    rw [if_neg hne, hj]
    simp [hd, herr]

/-- Claim C5 (witness): a concrete delta applied to the last message and
a concrete error appended as a new message. -/
theorem delta_error_handling_amended_witness :
    ((handlePayload jsonParseChars ("\x7b\"delta\":\"hi\"\x7d").toList
        ⟨[⟨"user", "q"⟩, ⟨"ai", "so far"⟩], [], false⟩).1.msgs
      = [⟨"user", "q"⟩] ++ [⟨"ai", "so far" ++ "hi"⟩])
    ∧ ((handlePayload jsonParseChars ("\x7b\"error\":\"rate limited\"\x7d").toList
        ⟨[⟨"user", "q"⟩, ⟨"ai", ""⟩], [], false⟩).1.msgs
      = [⟨"user", "q"⟩, ⟨"ai", ""⟩] ++ [⟨"ai", "Error: " ++ "rate limited"⟩]) := by
  constructor
  · have h := (delta_error_handling_amended jsonParseChars
      ("\x7b\"delta\":\"hi\"\x7d").toList
      ⟨[⟨"user", "q"⟩, ⟨"ai", "so far"⟩], [], false⟩
      (.jobj [("delta", .jstr "hi")]) rfl (by decide) (by decide)).1 (by decide)
    simpa using h
  · have h := (delta_error_handling_amended jsonParseChars
      ("\x7b\"error\":\"rate limited\"\x7d").toList
      ⟨[⟨"user", "q"⟩, ⟨"ai", ""⟩], [], false⟩
      (.jobj [("error", .jstr "rate limited")]) rfl (by decide)
      (by decide)).2 (by decide) (by decide)
    simpa using h

/-- Claim C6: a `data:` payload (other than the sentinel, which is tested
before any parsing) on which `JSON.parse` throws is recovered inside the
consumer — its raw text is appended verbatim as a delta to the last
message, and no new (error or other) message is created. -/
theorem parse_failure_fallback (J : List Char → Option JsonVal)
    (d : List Char) (m : MsgSt) (hj : J d = none) (hne : d ≠ endLit) :
    handlePayload J d m
      = ({ m with
            msgs := appendLast m.msgs (String.mk d),
            log := m.log ++ [String.mk d] }, false)
    ∧ (appendLast m.msgs (String.mk d)).length = m.msgs.length := by
  constructor
  · unfold handlePayload
    rw [if_neg hne, hj]
  · exact appendLast_length m.msgs _

/-- Claim C6 (witness): the concrete non-JSON payload of the spec's
scenario 3. -/
theorem parse_failure_fallback_witness :
    handlePayload jsonParseChars "plain text reply".toList
      ⟨[⟨"ai", ""⟩], [], false⟩
      = (⟨[⟨"ai", "" ++ "plain text reply"⟩],
          [] ++ [String.mk "plain text reply".toList], false⟩, false)
    ∧ (appendLast [⟨"ai", ""⟩] (String.mk "plain text reply".toList)).length
      = ([⟨"ai", ""⟩] : List Msg).length := by
  have h := parse_failure_fallback jsonParseChars "plain text reply".toList
    ⟨[⟨"ai", ""⟩], [], false⟩ rfl (by decide)
  constructor
  · rw [h.1]
    decide
  · exact h.2

/-- Claim C3 (code bug): cancelling mid-stream does not fail silently —
the `AbortError` thrown out of `reader.read()` is caught by the generic
`catch (e)`, which appends `"Error: " + e.message` as a new assistant
message. The busy flag is cleared, but a message IS appended, contrary to
the specified silent-cancellation behaviour. -/
theorem abort_appends_error_message :
    sendMessageA jsonParseChars "hi" false initialMessages
      ⟨true, 200, true,
        [strBytes "data: \x7b\"delta\":\"He\"\x7d\n\n",
          strBytes "data: \x7b\"delta\":\"llo\"\x7d\n\n"]⟩
      (.duringRead 1 "The user aborted a request.")
      = (initialMessages ++
          [⟨"user", "hi"⟩, ⟨"ai", "He"⟩,
            ⟨"ai", "Error: The user aborted a request."⟩], false) := by decide

/-- Claim C7: a non-2xx status (or missing body) before any bytes arrive
appends exactly one assistant message `"Error: HTTP <status>"` after the
user and open messages, terminates the session, and clears the busy
flag. -/
theorem http_error_single_message (J : List Char → Option JsonVal)
    (input : String) (msgs0 : List Msg) (resp : Resp)
    (hq : jsTrim input.toList ≠ [])
    (he : resp.ok = false ∨ resp.hasBody = false) :
    sendMessageA J input false msgs0 resp .never
      = (msgs0 ++ [⟨"user", String.mk (jsTrim input.toList)⟩, ⟨"ai", ""⟩,
          ⟨"ai", "Error: HTTP " ++ toString resp.status⟩], false)
    ∧ (([⟨"user", String.mk (jsTrim input.toList)⟩, ⟨"ai", ""⟩,
          ⟨"ai", "Error: HTTP " ++ toString resp.status⟩] : List Msg).filter
        (fun mg => mg.role == "ai" &&
          mg.text == "Error: HTTP " ++ toString resp.status)).length = 1 := by
  constructor
  · have hg : ¬(jsTrim input.toList = [] ∨ false = true) := by
      intro hor
      cases hor with
      | inl h => exact hq h
      | inr h => simp at h
    simp only [sendMessageA, if_neg hg]
    rw [if_pos he]
    simp [sendPrelude, List.append_assoc]
  · have hne2 : ¬("" : String) = "Error: HTTP " ++ toString resp.status := by
      intro hx
      have hl := congrArg String.length hx
      rw [String.length_append] at hl
      have h12 : ("Error: HTTP " : String).length = 12 := rfl
      have h0 : ("" : String).length = 0 := rfl
      rw [h12, h0] at hl
      omega
    have hb : (("" : String) == "Error: HTTP " ++ toString resp.status)
        = false := beq_eq_false_iff_ne.mpr hne2
    simp [List.filter, hb]

/-- Claim C7 (witness): the spec's concrete scenario 5, a 500 status. -/
theorem http_error_single_message_witness :
    sendMessageA jsonParseChars "q" false initialMessages
      ⟨false, 500, true, []⟩ .never
      = (initialMessages ++ [⟨"user", String.mk (jsTrim "q".toList)⟩,
          ⟨"ai", ""⟩, ⟨"ai", "Error: HTTP " ++ toString 500⟩], false)
    ∧ (([⟨"user", String.mk (jsTrim "q".toList)⟩, ⟨"ai", ""⟩,
          ⟨"ai", "Error: HTTP " ++ toString 500⟩] : List Msg).filter
        (fun mg => mg.role == "ai" &&
          mg.text == "Error: HTTP " ++ toString 500)).length = 1 :=
  http_error_single_message jsonParseChars "q" initialMessages
    ⟨false, 500, true, []⟩ (by decide) (Or.inl rfl)

/-- Claim C8: `send` is a complete no-op when the question trims to empty
or a session is already active (busy flag unchanged, no message, no
request); otherwise it appends the user message and a new empty open
assistant message, runs the stream session from them, and every earlier
message survives unchanged with the user message in place. -/
theorem send_guard (J : List Char → Option JsonVal) (input : String)
    (loading : Bool) (msgs0 : List Msg) (resp : Resp) (ab : AbortSpec) :
    ((jsTrim input.toList = [] ∨ loading = true) →
      sendMessageA J input loading msgs0 resp ab = (msgs0, loading))
    ∧ (jsTrim input.toList ≠ [] → loading = false →
        resp.ok = true → resp.hasBody = true → ab = .never →
        sendMessageA J input loading msgs0 resp ab
          = ((runA J resp.chunks (initStA (sendPrelude input msgs0))).m.msgs,
              false)
        ∧ ∃ rest, rest ≠ [] ∧
            (sendMessageA J input loading msgs0 resp ab).1
              = msgs0 ++ ⟨"user", String.mk (jsTrim input.toList)⟩ :: rest) := by
  constructor
  · intro hg
    simp only [sendMessageA, if_pos hg]
  · intro hq hl hok hbody hab
    subst hl
    subst hab
    have hg : ¬(jsTrim input.toList = [] ∨ false = true) := by
      intro hor
      cases hor with
      | inl h => exact hq h
      | inr h => simp at h
    have hok2 : ¬(resp.ok = false ∨ resp.hasBody = false) := by
      simp [hok, hbody]
    have hrun : sendMessageA J input false msgs0 resp .never
        = ((runA J resp.chunks (initStA (sendPrelude input msgs0))).m.msgs,
            false) := by
      simp only [sendMessageA, if_neg hg]
      rw [if_neg hok2]
    refine ⟨hrun, ?_⟩
    have hpre : (initStA (sendPrelude input msgs0)).m.msgs
        = (msgs0 ++ [⟨"user", String.mk (jsTrim input.toList)⟩])
          ++ [⟨"ai", ""⟩] := by
      simp [initStA, sendPrelude]
    obtain ⟨rest2, hr2, hm2⟩ := runA_ext J resp.chunks
      (initStA (sendPrelude input msgs0))
      (msgs0 ++ [⟨"user", String.mk (jsTrim input.toList)⟩])
      [⟨"ai", ""⟩] (by simp) hpre
    refine ⟨rest2, hr2, ?_⟩
    rw [hrun]
    rw [hm2, List.append_assoc, List.singleton_append]

/-- Claim C8 (witness): concrete rejected (busy) and accepted sends. -/
theorem send_guard_witness :
    sendMessageA jsonParseChars "q" true initialMessages
      ⟨true, 200, true, []⟩ .never = (initialMessages, true)
    ∧ (sendMessageA jsonParseChars "q" false initialMessages
        ⟨true, 200, true, []⟩ .never
        = ((runA jsonParseChars []
            (initStA (sendPrelude "q" initialMessages))).m.msgs, false)
      ∧ ∃ rest, rest ≠ [] ∧
          (sendMessageA jsonParseChars "q" false initialMessages
            ⟨true, 200, true, []⟩ .never).1
            = initialMessages ++
                ⟨"user", String.mk (jsTrim "q".toList)⟩ :: rest) :=
  ⟨(send_guard jsonParseChars "q" true initialMessages
      ⟨true, 200, true, []⟩ .never).1 (Or.inr rfl),
   (send_guard jsonParseChars "q" false initialMessages
      ⟨true, 200, true, []⟩ .never).2 (by decide) rfl rfl rfl rfl⟩

/-- Claim C10: the conversation starts with the single greeting message
and is never empty thereafter — the payload dispatcher, the drain loop,
the read loop and the whole `sendMessage` keep the message list
nonempty, so the `out[out.length - 1]` access in the delta handler is
always a valid (defined) last element. -/
theorem messages_nonempty_invariant :
    initialMessages.length = 1
    ∧ (∀ (J : List Char → Option JsonVal) (d : List Char) (m : MsgSt),
        m.msgs ≠ [] → (handlePayload J d m).1.msgs ≠ [])
    ∧ (∀ (J : List Char → Option JsonVal) (b : List Char) (m : MsgSt),
        m.msgs ≠ [] → (drain J b m).2.1.msgs ≠ [])
    ∧ (∀ (J : List Char → Option JsonVal) (chunks : List (List Nat))
        (msgs0 : List Msg), msgs0 ≠ [] →
        (runA J chunks (initStA msgs0)).m.msgs ≠ [])
    ∧ (∀ (J : List Char → Option JsonVal) (input : String) (loading : Bool)
        (resp : Resp) (ab : AbortSpec),
        (sendMessageA J input loading initialMessages resp ab).1 ≠ []) := by
  refine ⟨rfl, ?_, ?_, ?_, ?_⟩
  · intro J d m hm
    obtain ⟨r2, hr2, hm2⟩ := handlePayload_ext J d m [] m.msgs hm (by simp)
    rw [hm2]
    simpa using hr2
  · intro J b m hm
    obtain ⟨r2, hr2, hm2⟩ := drain_ext J b.length b (le_refl _) m [] m.msgs
      hm (by simp)
    rw [hm2]
    simpa using hr2
  · intro J chunks msgs0 hm
    obtain ⟨r2, hr2, hm2⟩ := runA_ext J chunks (initStA msgs0) [] msgs0 hm
      (by simp [initStA])
    rw [hm2]
    simpa using hr2
  · intro J input loading resp ab
    by_cases hg : jsTrim input.toList = [] ∨ loading = true
    · simp only [sendMessageA, if_pos hg]
      simp [initialMessages]
    · simp only [sendMessageA, if_neg hg]
      cases ab with
      | duringFetch em => simp [sendPrelude]
      | never =>
        by_cases herr : resp.ok = false ∨ resp.hasBody = false
        · rw [if_pos herr]
          simp [sendPrelude]
        · rw [if_neg herr]
          obtain ⟨r2, hr2, hm2⟩ := runA_ext J resp.chunks
            (initStA (sendPrelude input initialMessages)) []
            (sendPrelude input initialMessages)
            (by simp [sendPrelude]) (by simp [initStA])
          show (runA J resp.chunks
            (initStA (sendPrelude input initialMessages))).m.msgs ≠ []
          rw [hm2]
          simpa using hr2
      | duringRead k em =>
        dsimp only
        by_cases herr : resp.ok = false ∨ resp.hasBody = false
        · rw [if_pos herr]
          simp [sendPrelude]
        · rw [if_neg herr]
          by_cases hk : k < resp.chunks.length
          · rw [if_pos hk]
            simp
          · rw [if_neg hk]
            obtain ⟨r2, hr2, hm2⟩ := runA_ext J resp.chunks
              (initStA (sendPrelude input initialMessages)) []
              (sendPrelude input initialMessages)
              (by simp [sendPrelude]) (by simp [initStA])
            show (runA J resp.chunks
              (initStA (sendPrelude input initialMessages))).m.msgs ≠ []
            rw [hm2]
            simpa using hr2

/-- Claim C10 (witness): the conversation stays nonempty on a concrete
dispatch and a concrete send. -/
theorem messages_nonempty_invariant_witness :
    (handlePayload jsonParseChars "x".toList
      ⟨[⟨"ai", ""⟩], [], false⟩).1.msgs ≠ []
    ∧ (runA jsonParseChars [strBytes "data: end\n\n"]
        (initStA initialMessages)).m.msgs ≠ [] :=
  ⟨messages_nonempty_invariant.2.1 jsonParseChars "x".toList
      ⟨[⟨"ai", ""⟩], [], false⟩ (by decide),
   messages_nonempty_invariant.2.2.2.1 jsonParseChars
      [strBytes "data: end\n\n"] initialMessages (by decide)⟩
